import Mathlib

/-!
# Shallow embedding of the `brb_dt_at2` AT2 Bank data type

This file embeds the Rust sources of the `brb_dt_at2` crate
(`src/bank.rs`, `src/op.rs`, `src/transfer.rs`) into Lean 4 and proves
functional-correctness and invariant properties about them.

Modelling conventions:
* `Money` (`src/money.rs`, not present in the source tree) is modelled from
  the spec as an unsigned fixed-width amount: a `Nat` together with the
  bound `Money.maxValue`; arithmetic that the Rust code performs in `i128`
  is carried out in `Int`.
* Rust `BTreeSet` values are modelled as duplicate-free `List`s with a
  membership-guarded insert, `BTreeMap<A, BTreeSet<Transfer<A>>>` (the
  `hist` field, read only through `get(..).unwrap_or_default()`) as a total
  function `A → List (Transfer A)` defaulting to `[]`, and
  `BTreeMap<A, Money>` (the `initial_balances` field, which must be
  enumerated for conservation sums) as an association list with
  replace-on-insert semantics.
* A Rust `panic!`/`assert!` is modelled as `Option.none`: `initial_balance`
  and `balance` return `Option Money`, and functions that call them
  propagate the `none`.
-/

/-- `Money` is a fixed-width unsigned integer type.  Modelled from the spec:
`src/money.rs` is not in the source tree; the spec describes Money as "a
bounded unsigned amount type", "unsigned fixed-width amount, range
`[0, MAX]`".  We model it as `Nat` together with the 64-bit bound used by
`Money::max_value()`. -/
abbrev Money : Type := Nat

/-- Modelled from the spec: the `MAX` of the bounded unsigned amount type
(`Money::max_value()` in `Bank::balance`), taken as the 64-bit bound. -/
def Money.maxValue : Money := 18446744073709551615

/-- `Transfer<A>` from `src/transfer.rs`: `{ from, to, amount, deps }` where
`deps: BTreeSet<Transfer<A>>` recursively holds the transfers cited as proof
of funds.  The Rust field `from` is a Lean keyword and is rendered `frm`. -/
inductive Transfer (A : Type) : Type where
  | mk (frm : A) (tto : A) (amount : Money) (deps : List (Transfer A)) : Transfer A

mutual

/-- Structural (derived) equality decision for `Transfer`; the Rust type
derives `PartialEq`/`Eq` structurally. -/
def Transfer.decEq {A : Type} [inst : DecidableEq A] : (t u : Transfer A) → Decidable (t = u)
  | .mk f1 t1 a1 d1, .mk f2 t2 a2 d2 =>
    match inst f1 f2 with
    | isFalse h => isFalse (by intro he; injection he; contradiction)
    | isTrue h1 =>
      match inst t1 t2 with
      | isFalse h => isFalse (by intro he; injection he; contradiction)
      | isTrue h2 =>
        match Nat.decEq a1 a2 with
        | isFalse h => isFalse (by intro he; injection he; contradiction)
        | isTrue h3 =>
          match Transfer.decEqList d1 d2 with
          | isFalse h => isFalse (by intro he; injection he; contradiction)
          | isTrue h4 => isTrue (by rw [h1, h2, h3, h4])

/-- Equality decision for lists of transfers (the `deps` field). -/
def Transfer.decEqList {A : Type} [DecidableEq A] :
    (l1 l2 : List (Transfer A)) → Decidable (l1 = l2)
  | [], [] => isTrue rfl
  | [], _ :: _ => isFalse nofun
  | _ :: _, [] => isFalse nofun
  | x :: xs, y :: ys =>
    match Transfer.decEq x y with
    | isFalse h => isFalse (by intro he; injection he; contradiction)
    | isTrue h1 =>
      match Transfer.decEqList xs ys with
      | isFalse h => isFalse (by intro he; injection he; contradiction)
      | isTrue h2 => isTrue (by rw [h1, h2])

end

instance {A : Type} [DecidableEq A] : DecidableEq (Transfer A) := Transfer.decEq

instance {α : Type} [DecidableEq α] (l1 l2 : List α) : Decidable (l1 ⊆ l2) :=
  decidable_of_iff (∀ a ∈ l1, a ∈ l2) (by simp [List.subset_def])

namespace Transfer

/-- The sending account (`Transfer.from` in the source). -/
def frm {A : Type} : Transfer A → A
  | .mk f _ _ _ => f

/-- The receiving account (`Transfer.to` in the source). -/
def tto {A : Type} : Transfer A → A
  | .mk _ t _ _ => t

/-- The amount moved (`Transfer.amount` in the source). -/
def amount {A : Type} : Transfer A → Money
  | .mk _ _ m _ => m

/-- The cited dependency set (`Transfer.deps` in the source). -/
def deps {A : Type} : Transfer A → List (Transfer A)
  | .mk _ _ _ d => d

end Transfer

/-- `Op<A>` from `src/op.rs`: transfer between two accounts, or open a new
account. -/
inductive Op (A : Type) : Type where
  | Transfer (t : Transfer A) : Op A
  | OpenAccount (owner : A) (balance : Money) : Op A
deriving DecidableEq

/-- `BTreeSet::insert`: a set insert, modelled on lists as a
membership-guarded cons (a no-op when the element is present). -/
def setInsert {α : Type} [DecidableEq α] (x : α) (s : List α) : List α :=
  if x ∈ s then s else x :: s

/-- `BTreeSet::remove` iterated over a collection: the `for prior_transfer
in transfer.deps { self.deps.remove(prior_transfer) }` loop of
`Bank::apply`. -/
def setRemoveAll {α : Type} [DecidableEq α] (s : List α) (rem : List α) : List α :=
  rem.foldl (fun acc x => acc.erase x) s

/-- `BTreeMap::insert` on an association list: replaces the value at an
existing key, otherwise appends the binding. -/
def insertAList {A : Type} [DecidableEq A] (k : A) (v : Money) :
    List (A × Money) → List (A × Money)
  | [] => [(k, v)]
  | (a, b) :: rest => if a = k then (k, v) :: rest else (a, b) :: insertAList k v rest

/-- `BTreeMap::get` on an association list. -/
def lookupAList {A : Type} [DecidableEq A] (k : A) : List (A × Money) → Option Money
  | [] => none
  | (a, b) :: rest => if a = k then some b else lookupAList k rest

/-- `BTreeMap::contains_key` on an association list. -/
def containsKey {A : Type} [DecidableEq A] (k : A) (m : List (A × Money)) : Prop :=
  lookupAList k m ≠ none

instance {A : Type} [DecidableEq A] (k : A) (m : List (A × Money)) :
    Decidable (containsKey k m) := by
  unfold containsKey; infer_instance

/-- The `Bank<A>` state from `src/bank.rs`: the replica's own actor `id`,
the proof-of-funds frontier `deps` for the next outgoing transfer, the
`initial_balances` map written by `OpenAccount`, and the per-actor transfer
history `hist`. -/
structure Bank (A : Type) where
  id : A
  deps : List (Transfer A)
  initial_balances : List (A × Money)
  hist : A → List (Transfer A)

namespace Bank

variable {A : Type} [DecidableEq A]

/-- `BRBDataType::new` for `Bank`: empty replica for `id`. -/
def new (id : A) : Bank A :=
  { id := id, deps := [], initial_balances := [], hist := fun _ => [] }

/-- `Bank::open_account`: pure constructor of an `OpenAccount` op. -/
def open_account (_b : Bank A) (owner : A) (balance : Money) : Op A :=
  Op.OpenAccount owner balance

/-- `Bank::initial_balance`: looks up `initial_balances`; the Rust code
panics (`unwrap_or_else(|| panic!(..))`) when the actor is absent, modelled
as `none`. -/
def initial_balance (b : Bank A) (actor : A) : Option Money :=
  lookupAList actor b.initial_balances

/-- `Bank::history`: `hist.get(actor).cloned().unwrap_or_default()`. -/
def history (b : Bank A) (actor : A) : List (Transfer A) :=
  b.hist actor

/-- The `outgoing` sum inside `Bank::balance`:
`Σ t.amount over history(actor) where t.from == actor`. -/
def outgoing (b : Bank A) (actor : A) : Money :=
  (((b.history actor).filter (fun t => t.frm = actor)).map Transfer.amount).sum

/-- The `incoming` sum inside `Bank::balance`:
`Σ t.amount over history(actor) where t.tto == actor`. -/
def incoming (b : Bank A) (actor : A) : Money :=
  (((b.history actor).filter (fun t => t.tto = actor)).map Transfer.amount).sum

/-- The signed `balance` value computed in `i128` inside `Bank::balance`,
before the two `assert!`s and the downcast:
`initial_balance + (incoming − outgoing)`.  The initial balance of a
missing account is taken as `0` here; `balance` itself propagates the panic
of `initial_balance` instead. -/
def balanceInt (b : Bank A) (actor : A) : Int :=
  ((b.initial_balance actor).getD 0 : Int) + ((b.incoming actor : Int) - (b.outgoing actor : Int))

/-- `Bank::balance`: initial balance plus signed delta of the account's
history, `assert!`-checked against `0 ≤ balance ≤ Money::max_value()` and
downcast.  `none` models the panics (missing account, or a failed
assert). -/
def balance (b : Bank A) (actor : A) : Option Money :=
  match b.initial_balance actor with
  | none => none
  | some ib =>
    let bal : Int := (ib : Int) + ((b.incoming actor : Int) - (b.outgoing actor : Int))
    if 0 ≤ bal ∧ bal ≤ (Money.maxValue : Int) then some bal.toNat else none

/-- `Bank::transfer`: builds a candidate `Transfer` op citing the current
`deps` snapshot when `balance(from) ≥ amount`, returns no op (`some none`)
otherwise.  The outer `Option` models the panic of `balance`. -/
def transfer (b : Bank A) (frm tto : A) (amount : Money) : Option (Option (Op A)) :=
  match b.balance frm with
  | none => none
  | some bal =>
    if bal < amount then some none
    else some (some (Op.Transfer (Transfer.mk frm tto amount b.deps)))

end Bank

/-- `ValidationError` from `src/bank.rs`. -/
inductive ValidationError : Type where
  | NotInitiatedByAccountOwner : ValidationError
  | FromAccountDoesNotExist : ValidationError
  | ToAccountDoesNotExist : ValidationError
  | InsufficientFunds (balance : Money) (transfer_amount : Money) : ValidationError
  | MissingDependentOps : ValidationError
  | OwnerAlreadyHasAnAccount : ValidationError
deriving DecidableEq

namespace Bank

variable {A : Type} [DecidableEq A]

/-- `BRBDataType::validate` for `Bank`: the ordered Byzantine-protection
checks.  Pure (takes the bank by value, returns only the verdict).  The
outer `Option` models the panic that `Bank::balance` can raise. -/
def validate (b : Bank A) (source : A) (op : Op A) :
    Option (Except ValidationError Unit) :=
  match op with
  | Op.Transfer t =>
    if source ≠ t.frm then some (Except.error ValidationError.NotInitiatedByAccountOwner)
    else if ¬ containsKey t.frm b.initial_balances then
      some (Except.error ValidationError.FromAccountDoesNotExist)
    else if ¬ containsKey t.tto b.initial_balances then
      some (Except.error ValidationError.ToAccountDoesNotExist)
    else
      match b.balance t.frm with
      | none => none
      | some bal =>
        if bal < t.amount then
          some (Except.error (ValidationError.InsufficientFunds bal t.amount))
        else if ¬ t.deps ⊆ b.history t.frm then
          some (Except.error ValidationError.MissingDependentOps)
        else some (Except.ok ())
  | Op.OpenAccount owner _balance =>
    if source ≠ owner then some (Except.error ValidationError.NotInitiatedByAccountOwner)
    else if containsKey owner b.initial_balances then
      some (Except.error ValidationError.OwnerAlreadyHasAnAccount)
    else some (Except.ok ())

/-- `BRBDataType::apply` for `Bank`: executed once an op has been
validated; total (never fails). -/
def apply (b : Bank A) (op : Op A) : Bank A :=
  match op with
  | Op.Transfer t =>
    let hist1 : A → List (Transfer A) :=
      fun a => if a = t.frm then setInsert t (b.hist a) else b.hist a
    let hist2 : A → List (Transfer A) :=
      fun a => if a = t.tto then setInsert t (hist1 a) else hist1 a
    let deps1 : List (Transfer A) :=
      if t.tto = b.id then setInsert t b.deps else b.deps
    let deps2 : List (Transfer A) :=
      if t.frm = b.id then setRemoveAll deps1 t.deps else deps1
    { b with hist := hist2, deps := deps2 }
  | Op.OpenAccount owner balance =>
    { b with initial_balances := insertAList owner balance b.initial_balances }

/-- Left fold of `apply` over a list of ops: the state reached from `b`
after the engine delivers `ops` in order. -/
def applyAll (b : Bank A) (ops : List (Op A)) : Bank A :=
  ops.foldl apply b

/-- The originator identity under which an op can pass the
`NotInitiatedByAccountOwner` check of `validate`. -/
def opSource : Op A → A
  | Op.Transfer t => t.frm
  | Op.OpenAccount owner _ => owner

/-- A run in which every op is accepted by `validate` (invoked with the
op's own originator) against the state it is applied to. -/
def ValidRun : Bank A → List (Op A) → Prop
  | _, [] => True
  | b, op :: ops =>
      b.validate (opSource op) op = some (Except.ok ()) ∧ ValidRun (b.apply op) ops

end Bank

/-! ## Helper lemmas about the set and map models -/

section SetLemmas

variable {α : Type} [DecidableEq α]

theorem mem_setInsert {x y : α} {s : List α} : x ∈ setInsert y s ↔ x = y ∨ x ∈ s := by
  unfold setInsert
  split
  · constructor
    · exact fun h => Or.inr h
    · rintro (rfl | h) <;> assumption
  · simp [List.mem_cons]

theorem setInsert_of_mem {y : α} {s : List α} (h : y ∈ s) : setInsert y s = s := by
  simp [setInsert, h]

theorem setInsert_of_not_mem {y : α} {s : List α} (h : y ∉ s) : setInsert y s = y :: s := by
  simp [setInsert, h]

theorem subset_setInsert (y : α) (s : List α) : s ⊆ setInsert y s := by
  intro x hx
  exact mem_setInsert.mpr (Or.inr hx)

theorem nodup_setInsert {y : α} {s : List α} (h : s.Nodup) : (setInsert y s).Nodup := by
  unfold setInsert
  split
  · exact h
  · exact List.Nodup.cons (by assumption) h

theorem setRemoveAll_subset (s rem : List α) : setRemoveAll s rem ⊆ s := by
  induction rem generalizing s with
  | nil => exact fun x hx => hx
  | cons r rs ih =>
      intro x hx
      have step : setRemoveAll s (r :: rs) = setRemoveAll (s.erase r) rs := rfl
      rw [step] at hx
      exact List.erase_subset r s (ih (s.erase r) hx)

theorem nodup_setRemoveAll {s : List α} (rem : List α) (h : s.Nodup) :
    (setRemoveAll s rem).Nodup := by
  induction rem generalizing s with
  | nil => exact h
  | cons r rs ih => exact ih (h.erase r)

theorem mem_setRemoveAll {s : List α} (rem : List α) (h : s.Nodup) {x : α} :
    x ∈ setRemoveAll s rem ↔ x ∈ s ∧ x ∉ rem := by
  induction rem generalizing s with
  | nil => simp [setRemoveAll]
  | cons r rs ih =>
      have step : setRemoveAll s (r :: rs) = setRemoveAll (s.erase r) rs := rfl
      rw [step, ih (h.erase r), List.Nodup.mem_erase_iff h, List.mem_cons]
      constructor
      · rintro ⟨⟨hne, hs⟩, hrs⟩
        exact ⟨hs, by simp [hne, hrs]⟩
      · rintro ⟨hs, hn⟩
        push_neg at hn
        exact ⟨⟨hn.1, hs⟩, hn.2⟩

end SetLemmas

section MapLemmas

variable {A : Type} [DecidableEq A]

theorem lookup_insertAList_self (k : A) (v : Money) (m : List (A × Money)) :
    lookupAList k (insertAList k v m) = some v := by
  induction m with
  | nil => simp [insertAList, lookupAList]
  | cons p rest ih =>
      obtain ⟨a, b⟩ := p
      by_cases hak : a = k
      · simp [insertAList, hak, lookupAList]
      · simp [insertAList, hak, lookupAList, ih]

theorem lookup_insertAList_ne {k k' : A} (hne : k' ≠ k) (v : Money) (m : List (A × Money)) :
    lookupAList k' (insertAList k v m) = lookupAList k' m := by
  induction m with
  | nil => simp [insertAList, lookupAList, Ne.symm hne]
  | cons p rest ih =>
      obtain ⟨a, b⟩ := p
      by_cases hak : a = k
      · subst hak
        simp [insertAList, lookupAList, Ne.symm hne]
      · simp [insertAList, hak, lookupAList, ih]

theorem insertAList_of_not_containsKey {k : A} {m : List (A × Money)}
    (h : ¬ containsKey k m) (v : Money) : insertAList k v m = m ++ [(k, v)] := by
  induction m with
  | nil => simp [insertAList]
  | cons p rest ih =>
      obtain ⟨a, b⟩ := p
      by_cases hak : a = k
      · exfalso
        exact h (by simp [containsKey, lookupAList, hak])
      · have hrest : ¬ containsKey k rest := by
          intro hc
          exact h (by simpa [containsKey, lookupAList, hak] using hc)
        simp [insertAList, hak, ih hrest]

theorem containsKey_iff_mem_keys {k : A} {m : List (A × Money)} :
    containsKey k m ↔ k ∈ m.map Prod.fst := by
  induction m with
  | nil => simp [containsKey, lookupAList]
  | cons p rest ih =>
      obtain ⟨a, b⟩ := p
      by_cases hak : a = k
      · simp [containsKey, lookupAList, hak]
      · simpa [containsKey, lookupAList, hak, Ne.symm hak] using ih

end MapLemmas

/-! ## Structural lemmas about `Bank.apply` -/

/-- A transfer never appears among its own dependencies (the Rust value is
finite, so the recursive `deps` field cannot contain the transfer itself). -/
theorem Transfer.not_mem_own_deps {A : Type} (t : Transfer A) : t ∉ t.deps := by
  intro h
  have h1 := List.sizeOf_lt_of_mem h
  cases t with
  | mk f tt a d =>
      simp only [Transfer.deps] at h1
      simp only [Transfer.mk.sizeOf_spec] at h1
      omega

section ApplyLemmas

variable {A : Type} [DecidableEq A]

theorem apply_transfer_hist (b : Bank A) (t : Transfer A) (a : A) :
    (b.apply (Op.Transfer t)).hist a =
      (if a = t.tto then
        setInsert t (if a = t.frm then setInsert t (b.hist a) else b.hist a)
      else if a = t.frm then setInsert t (b.hist a) else b.hist a) := rfl

theorem apply_transfer_deps (b : Bank A) (t : Transfer A) :
    (b.apply (Op.Transfer t)).deps =
      (if t.frm = b.id then
        setRemoveAll (if t.tto = b.id then setInsert t b.deps else b.deps) t.deps
      else if t.tto = b.id then setInsert t b.deps else b.deps) := rfl

theorem mem_apply_transfer_hist (b : Bank A) (t : Transfer A) (a : A) (x : Transfer A) :
    x ∈ (b.apply (Op.Transfer t)).hist a ↔
      x ∈ b.hist a ∨ (x = t ∧ (a = t.frm ∨ a = t.tto)) := by
  rw [apply_transfer_hist]
  by_cases h2 : a = t.tto <;> by_cases h1 : a = t.frm
  · rw [if_pos h2, if_pos h1, mem_setInsert, mem_setInsert]; tauto
  · rw [if_pos h2, if_neg h1, mem_setInsert]; tauto
  · rw [if_neg h2, if_pos h1, mem_setInsert]; tauto
  · rw [if_neg h2, if_neg h1]; tauto

theorem mem_apply_transfer_deps (b : Bank A) (t : Transfer A) (hnd : b.deps.Nodup)
    (x : Transfer A) :
    x ∈ (b.apply (Op.Transfer t)).deps ↔
      ((x = t ∧ t.tto = b.id) ∨ (x ∈ b.deps ∧ ¬(t.frm = b.id ∧ x ∈ t.deps))) := by
  have hown := Transfer.not_mem_own_deps t
  rw [apply_transfer_deps]
  by_cases hto : t.tto = b.id <;> by_cases hfr : t.frm = b.id
  · rw [if_pos hfr, if_pos hto, mem_setRemoveAll _ (nodup_setInsert hnd), mem_setInsert]
    constructor
    · rintro ⟨(rfl | hmem), hnotd⟩
      · exact Or.inl ⟨rfl, hto⟩
      · exact Or.inr ⟨hmem, fun hc => hnotd hc.2⟩
    · rintro (⟨rfl, _⟩ | ⟨hmem, hnc⟩)
      · exact ⟨Or.inl rfl, hown⟩
      · exact ⟨Or.inr hmem, fun hc => hnc ⟨hfr, hc⟩⟩
  · rw [if_neg hfr, if_pos hto, mem_setInsert]
    constructor
    · rintro (rfl | hmem)
      · exact Or.inl ⟨rfl, hto⟩
      · exact Or.inr ⟨hmem, fun hc => hfr hc.1⟩
    · rintro (⟨rfl, _⟩ | ⟨hmem, _⟩)
      · exact Or.inl rfl
      · exact Or.inr hmem
  · rw [if_pos hfr, if_neg hto, mem_setRemoveAll _ hnd]
    constructor
    · rintro ⟨hmem, hnotd⟩
      exact Or.inr ⟨hmem, fun hc => hnotd hc.2⟩
    · rintro (⟨rfl, hc⟩ | ⟨hmem, hnc⟩)
      · exact absurd hc hto
      · exact ⟨hmem, fun hc => hnc ⟨hfr, hc⟩⟩
  · rw [if_neg hfr, if_neg hto]
    constructor
    · intro hmem
      exact Or.inr ⟨hmem, fun hc => hfr hc.1⟩
    · rintro (⟨rfl, hc⟩ | ⟨hmem, _⟩)
      · exact absurd hc hto
      · exact hmem

theorem apply_open_account_initial_balances (b : Bank A) (owner : A) (bal : Money) :
    (b.apply (Op.OpenAccount owner bal)).initial_balances =
      insertAList owner bal b.initial_balances := rfl

theorem apply_id (b : Bank A) (op : Op A) : (b.apply op).id = b.id := by
  cases op <;> rfl

theorem applyAll_id (b : Bank A) (ops : List (Op A)) : (b.applyAll ops).id = b.id := by
  induction ops generalizing b with
  | nil => rfl
  | cons op ops ih => rw [Bank.applyAll, List.foldl_cons, ← Bank.applyAll, ih, apply_id]

theorem hist_subset_apply (b : Bank A) (op : Op A) (a : A) :
    b.hist a ⊆ (b.apply op).hist a := by
  cases op with
  | Transfer t =>
      intro x hx
      exact (mem_apply_transfer_hist b t a x).mpr (Or.inl hx)
  | OpenAccount owner bal => exact fun x hx => hx

end ApplyLemmas

/-- Structural equality decision for `Except` verdicts (Rust `Result`
values derive `PartialEq`). -/
instance {e : Type} {a : Type} [DecidableEq e] [DecidableEq a] :
    DecidableEq (Except e a) := fun x y =>
  match x, y with
  | .error e1, .error e2 =>
    match decEq e1 e2 with
    | isTrue h => isTrue (by rw [h])
    | isFalse h => isFalse (by intro he; injection he; contradiction)
  | .error _, .ok _ => isFalse nofun
  | .ok _, .error _ => isFalse nofun
  | .ok a1, .ok a2 =>
    match decEq a1 a2 with
    | isTrue h => isTrue (by rw [h])
    | isFalse h => isFalse (by intro he; injection he; contradiction)

section RunLemmas

variable {A : Type} [DecidableEq A]

/-- Decision procedure for `ValidRun` (each op accepted by `validate`
against the state it is applied to). -/
def Bank.decValidRun : (ops : List (Op A)) → (b : Bank A) → Decidable (Bank.ValidRun b ops)
  | [], _ => isTrue trivial
  | op :: ops, b =>
    match Bank.decValidRun ops (b.apply op) with
    | isFalse h2 => isFalse (fun hc => h2 hc.2)
    | isTrue h2 =>
      match (inferInstance :
          Decidable (b.validate (Bank.opSource op) op = some (Except.ok ()))) with
      | isTrue h1 => isTrue ⟨h1, h2⟩
      | isFalse h1 => isFalse (fun hc => h1 hc.1)

instance (b : Bank A) (ops : List (Op A)) : Decidable (Bank.ValidRun b ops) :=
  Bank.decValidRun ops b

/-- One `apply` step preserves `deps ⊆ hist[id]`. -/
theorem deps_subset_step (b : Bank A) (op : Op A) (h : b.deps ⊆ b.hist b.id) :
    (b.apply op).deps ⊆ (b.apply op).hist ((b.apply op).id) := by
  rw [apply_id]
  cases op with
  | OpenAccount owner bal => exact h
  | Transfer t =>
      intro x hx
      rw [apply_transfer_deps] at hx
      rw [mem_apply_transfer_hist]
      have hx1 : x ∈ (if t.tto = b.id then setInsert t b.deps else b.deps) := by
        by_cases hfr : t.frm = b.id
        · rw [if_pos hfr] at hx
          exact setRemoveAll_subset _ _ hx
        · rw [if_neg hfr] at hx
          exact hx
      by_cases hto : t.tto = b.id
      · rw [if_pos hto] at hx1
        rcases mem_setInsert.mp hx1 with rfl | hmem
        · exact Or.inr ⟨rfl, Or.inr hto.symm⟩
        · exact Or.inl (h hmem)
      · rw [if_neg hto] at hx1
        exact Or.inl (h hx1)

/-- `deps ⊆ hist[id]` is preserved along any sequence of applies. -/
theorem applyAll_deps_subset (b : Bank A) (ops : List (Op A)) (h : b.deps ⊆ b.hist b.id) :
    (Bank.applyAll b ops).deps ⊆
      (Bank.applyAll b ops).hist ((Bank.applyAll b ops).id) := by
  induction ops generalizing b with
  | nil => exact h
  | cons op ops ih =>
      rw [Bank.applyAll, List.foldl_cons, ← Bank.applyAll]
      exact ih (b.apply op) (deps_subset_step b op h)

end RunLemmas

/-! ## Claim theorems -/

/-- C10: frame property of `Bank::apply`.  Applying an `Op::Transfer` leaves
the `id` and `initial_balances` fields unchanged, and applying an
`Op::OpenAccount` leaves the `id`, `hist` and `deps` fields unchanged: each
branch of `apply` mutates only the fields named in its specification. -/
theorem apply_frame {A : Type} [DecidableEq A] (b : Bank A) :
    (∀ t : Transfer A,
      (b.apply (Op.Transfer t)).id = b.id ∧
      (b.apply (Op.Transfer t)).initial_balances = b.initial_balances) ∧
    (∀ (owner : A) (bal : Money),
      (b.apply (Op.OpenAccount owner bal)).id = b.id ∧
      (b.apply (Op.OpenAccount owner bal)).hist = b.hist ∧
      (b.apply (Op.OpenAccount owner bal)).deps = b.deps) :=
  ⟨fun _ => ⟨rfl, rfl⟩, fun _ _ => ⟨rfl, rfl, rfl⟩⟩

/-- C7: evaluating the code at a failing input.  For an actor with no entry
in `initial_balances`, `Bank::initial_balance` panics
(`unwrap_or_else(|| panic!(..))`, modelled as `none`) instead of returning a
typed `AccountNotFound` error as the claim requires: the claim is right
about the intent (the spec calls the crash a defect the code must not
have) and the code is wrong. -/
theorem initial_balance_missing_account_panics :
    Bank.initial_balance (Bank.new (0 : Nat)) 1 = none := rfl

/-- C8: `Bank::transfer` returns a built `Op::Transfer` with fields
`from`, `to`, `amount` and a snapshot of the current `deps` exactly when
`balance(from) ≥ amount`, and returns no op (`None`) when
`balance(from) < amount`.  Stated for states where `balance(from)` is
defined (does not panic). -/
theorem transfer_builds_op_iff_funds {A : Type} [DecidableEq A] (b : Bank A)
    (frm tto : A) (amount bal : Money) (h : b.balance frm = some bal) :
    (amount ≤ bal →
      b.transfer frm tto amount =
        some (some (Op.Transfer (Transfer.mk frm tto amount b.deps)))) ∧
    (bal < amount → b.transfer frm tto amount = some none) := by
  have ht : b.transfer frm tto amount =
      if bal < amount then some none
      else some (some (Op.Transfer (Transfer.mk frm tto amount b.deps))) := by
    simp only [Bank.transfer, h]
  rw [ht]
  constructor
  · intro hle
    rw [if_neg (not_lt.mpr hle)]
  · intro hlt
    rw [if_pos hlt]

/-- Witness for C8 at a concrete input: an account opened with balance 5
can build a transfer of 3, and the built op snapshots the (empty) `deps`. -/
theorem transfer_builds_op_iff_funds_witness :
    Bank.transfer (Bank.applyAll (Bank.new (0 : Nat)) [Op.OpenAccount 0 5]) 0 1 3 =
      some (some (Op.Transfer (Transfer.mk 0 1 3 []))) :=
  (transfer_builds_op_iff_funds _ 0 1 3 5 (by decide)).1 (by decide)

/-- C3: the ledger equation of `Bank::balance`.  For an actor with an entry
in `initial_balances`, `balance` returns
`initial_balance + Σ(incoming amounts) − Σ(outgoing amounts)` (computed over
`history(actor)` with the signed delta in the wide type `Int`, modelling the
`i128` of the source) exactly when that value lies in `[0, Money::MAX]`,
and fails (`assert!` panic, modelled `none`) instead of silently wrapping
otherwise. -/
theorem balance_ledger_equation {A : Type} [DecidableEq A] (b : Bank A) (a : A)
    (ib : Money) (h : b.initial_balance a = some ib) :
    (∀ m : Money,
      b.balance a = some m ↔
        ((m : Int) = (ib : Int) + ((b.incoming a : Int) - (b.outgoing a : Int)) ∧
          (m : Int) ≤ (Money.maxValue : Int))) ∧
    (b.balance a = none ↔
      ((ib : Int) + ((b.incoming a : Int) - (b.outgoing a : Int)) < 0 ∨
        (Money.maxValue : Int) < (ib : Int) + ((b.incoming a : Int) - (b.outgoing a : Int)))) := by
  set v : Int := (ib : Int) + ((b.incoming a : Int) - (b.outgoing a : Int)) with hv
  have hbal : b.balance a =
      if 0 ≤ v ∧ v ≤ (Money.maxValue : Int) then some v.toNat else none := by
    rw [hv]
    simp only [Bank.balance, h]
  constructor
  · intro m
    rw [hbal]
    by_cases hc : 0 ≤ v ∧ v ≤ (Money.maxValue : Int)
    · rw [if_pos hc]
      constructor
      · intro hm
        have hmv : v.toNat = m := Option.some.inj hm
        have hcast : ((v.toNat : Int)) = v := Int.toNat_of_nonneg hc.1
        rw [← hmv, hcast]
        exact ⟨rfl, hc.2⟩
      · rintro ⟨h1, h2⟩
        have hmv : v.toNat = m := by
          have h3 := congrArg Int.toNat h1
          simpa using h3.symm
        rw [hmv]
    · rw [if_neg hc]
      constructor
      · intro hm
        cases hm
      · rintro ⟨h1, h2⟩
        exact absurd ⟨h1 ▸ Int.natCast_nonneg m, h1 ▸ h2⟩ hc
  · rw [hbal]
    by_cases hc : 0 ≤ v ∧ v ≤ (Money.maxValue : Int)
    · rw [if_pos hc]
      constructor
      · intro hm
        cases hm
      · intro hm
        exfalso
        rcases hm with h1 | h1
        · omega
        · omega
    · rw [if_neg hc]
      constructor
      · intro _
        push_neg at hc
        by_cases h0 : 0 ≤ v
        · exact Or.inr (hc h0)
        · exact Or.inl (by omega)
      · intro _
        rfl

/-- Witness for C3 at a concrete input: a freshly opened account with
initial balance 10 has balance 10. -/
theorem balance_ledger_equation_witness :
    Bank.balance (Bank.applyAll (Bank.new (0 : Nat)) [Op.OpenAccount 0 10]) 0 = some 10 :=
  ((balance_ledger_equation (Bank.applyAll (Bank.new (0 : Nat)) [Op.OpenAccount 0 10]) 0 10
    (by decide)).1 10).mpr (by decide)

/-- C1: `Bank::validate` performs the specified ordered checks and returns
the error of the first failing check (it is pure by its Lean type: it
consumes the state and returns only the verdict).  Each possible verdict is
characterised exactly: for `Op::Transfer(t)` the checks are originator,
`from` account existence, `to` account existence, funds, dependency subset;
for `Op::OpenAccount` the checks are originator and prior account
existence.  Stated for verdicts `some _` (a `none` only arises when the
inner `balance` call panics, which no check order can observe). -/
theorem validate_ordered_checks {A : Type} [DecidableEq A] (b : Bank A) (source : A) :
    (∀ t : Transfer A,
      (b.validate source (Op.Transfer t) =
          some (Except.error ValidationError.NotInitiatedByAccountOwner) ↔
        source ≠ t.frm) ∧
      (b.validate source (Op.Transfer t) =
          some (Except.error ValidationError.FromAccountDoesNotExist) ↔
        source = t.frm ∧ ¬ containsKey t.frm b.initial_balances) ∧
      (b.validate source (Op.Transfer t) =
          some (Except.error ValidationError.ToAccountDoesNotExist) ↔
        source = t.frm ∧ containsKey t.frm b.initial_balances ∧
          ¬ containsKey t.tto b.initial_balances) ∧
      (∀ bal amt : Money,
        b.validate source (Op.Transfer t) =
            some (Except.error (ValidationError.InsufficientFunds bal amt)) ↔
          source = t.frm ∧ containsKey t.frm b.initial_balances ∧
            containsKey t.tto b.initial_balances ∧
            b.balance t.frm = some bal ∧ bal < t.amount ∧ amt = t.amount) ∧
      (b.validate source (Op.Transfer t) =
          some (Except.error ValidationError.MissingDependentOps) ↔
        source = t.frm ∧ containsKey t.frm b.initial_balances ∧
          containsKey t.tto b.initial_balances ∧
          (∃ bal, b.balance t.frm = some bal ∧ t.amount ≤ bal) ∧
          ¬ t.deps ⊆ b.history t.frm) ∧
      (b.validate source (Op.Transfer t) = some (Except.ok ()) ↔
        source = t.frm ∧ containsKey t.frm b.initial_balances ∧
          containsKey t.tto b.initial_balances ∧
          (∃ bal, b.balance t.frm = some bal ∧ t.amount ≤ bal) ∧
          t.deps ⊆ b.history t.frm)) ∧
    (∀ (owner : A) (bal : Money),
      (b.validate source (Op.OpenAccount owner bal) =
          some (Except.error ValidationError.NotInitiatedByAccountOwner) ↔
        source ≠ owner) ∧
      (b.validate source (Op.OpenAccount owner bal) =
          some (Except.error ValidationError.OwnerAlreadyHasAnAccount) ↔
        source = owner ∧ containsKey owner b.initial_balances) ∧
      (b.validate source (Op.OpenAccount owner bal) = some (Except.ok ()) ↔
        source = owner ∧ ¬ containsKey owner b.initial_balances)) := by
  constructor
  · intro t
    by_cases hs : source = t.frm
    · by_cases hf : containsKey t.frm b.initial_balances
      · by_cases ht : containsKey t.tto b.initial_balances
        · cases hbal : b.balance t.frm with
          | none =>
              refine ⟨?_, ?_, ?_, ?_, ?_, ?_⟩ <;>
                simp [Bank.validate, hs, hf, ht, hbal]
          | some bal0 =>
              by_cases hlt : bal0 < t.amount
              · refine ⟨?_, ?_, ?_, ?_, ?_, ?_⟩ <;>
                  simp [Bank.validate, hs, hf, ht, hbal, hlt]
                rintro bal amt rfl
                exact ⟨fun h => ⟨hlt, h.symm⟩, fun h => h.2.symm⟩
              · by_cases hsub : t.deps ⊆ b.history t.frm
                · refine ⟨?_, ?_, ?_, ?_, ?_, ?_⟩ <;>
                    simp [Bank.validate, hs, hf, ht, hbal, hlt, hsub]
                  · rintro bal amt rfl hlt2
                    exact absurd hlt2 hlt
                  · exact not_lt.mp hlt
                · refine ⟨?_, ?_, ?_, ?_, ?_, ?_⟩ <;>
                    simp [Bank.validate, hs, hf, ht, hbal, hlt, hsub]
                  · rintro bal amt rfl hlt2
                    exact absurd hlt2 hlt
                  · exact not_lt.mp hlt
        · refine ⟨?_, ?_, ?_, ?_, ?_, ?_⟩ <;> simp [Bank.validate, hs, hf, ht]
      · refine ⟨?_, ?_, ?_, ?_, ?_, ?_⟩ <;> simp [Bank.validate, hs, hf]
    · refine ⟨?_, ?_, ?_, ?_, ?_, ?_⟩ <;> simp [Bank.validate, hs]
  · intro owner bal
    by_cases hs : source = owner
    · by_cases hc : containsKey owner b.initial_balances
      · refine ⟨?_, ?_, ?_⟩ <;> simp [Bank.validate, hs, hc]
      · refine ⟨?_, ?_, ?_⟩ <;> simp [Bank.validate, hs, hc]
    · refine ⟨?_, ?_, ?_⟩ <;> simp [Bank.validate, hs]

/-- C2: characterisation of `Bank::apply`.  `apply` is total (never fails,
as its Lean type shows).  For `Op::Transfer(t)`, it inserts `t` into
`hist[t.from]` and `hist[t.to]` by idempotent set insert (membership in any
history entry after the apply is membership before, or being `t` at the
`from`/`to` entries); it inserts `t` into `deps` iff `t.to == id`, and
removes the elements of `t.deps` from `deps` iff `t.from == id`.  For
`Op::OpenAccount{owner, balance}` it sets `initial_balances[owner] =
balance`. -/
theorem apply_spec {A : Type} [DecidableEq A] (b : Bank A) (hnd : b.deps.Nodup) :
    (∀ (t : Transfer A) (a : A) (x : Transfer A),
      x ∈ (b.apply (Op.Transfer t)).hist a ↔
        x ∈ b.hist a ∨ (x = t ∧ (a = t.frm ∨ a = t.tto))) ∧
    (∀ (t x : Transfer A),
      x ∈ (b.apply (Op.Transfer t)).deps ↔
        ((x = t ∧ t.tto = b.id) ∨ (x ∈ b.deps ∧ ¬(t.frm = b.id ∧ x ∈ t.deps)))) ∧
    (∀ (owner : A) (bal : Money),
      lookupAList owner (b.apply (Op.OpenAccount owner bal)).initial_balances = some bal) :=
  ⟨fun t a x => mem_apply_transfer_hist b t a x,
   fun t x => mem_apply_transfer_deps b t hnd x,
   fun owner bal => lookup_insertAList_self owner bal b.initial_balances⟩

/-- Witness for C2 at a concrete input: applying a transfer into account 0
on the fresh bank for 0 records it in the recipient history and in `deps`,
and applying an open-account op records the balance. -/
theorem apply_spec_witness :
    Transfer.mk 1 0 5 [] ∈
      (Bank.apply (Bank.new (0 : Nat)) (Op.Transfer (Transfer.mk 1 0 5 []))).deps ∧
    lookupAList 2 (Bank.apply (Bank.new (0 : Nat)) (Op.OpenAccount 2 7)).initial_balances =
      some 7 :=
  ⟨((apply_spec (Bank.new (0 : Nat)) (by decide)).2.1 (Transfer.mk 1 0 5 [])
      (Transfer.mk 1 0 5 [])).mpr (Or.inl ⟨rfl, rfl⟩),
   (apply_spec (Bank.new (0 : Nat)) (by decide)).2.2 2 7⟩

/-- C4: invariant `deps ⊆ hist[id]`.  In every Bank state reachable from
`new(id)` by any sequence of `apply` calls, every transfer in the
proof-of-funds frontier `deps` is also recorded in the bank's own account
history `hist[id]`; `new(id)` establishes it with both empty and every
`apply` preserves it. -/
theorem deps_subset_own_hist {A : Type} [DecidableEq A] (id : A) (ops : List (Op A)) :
    (Bank.applyAll (Bank.new id) ops).deps ⊆
      (Bank.applyAll (Bank.new id) ops).hist id := by
  have h := applyAll_deps_subset (Bank.new id) ops (by intro x hx; cases hx)
  rwa [applyAll_id] at h

/-- C9: write-once initial balances.  Along any validated run, an entry of
`initial_balances` never changes once written: transfers do not touch the
map and `validate` rejects a second `OpenAccount` for an existing owner. -/
theorem initial_balances_write_once {A : Type} [DecidableEq A] (b : Bank A)
    (ops : List (Op A)) (owner : A) (v : Money) (hrun : Bank.ValidRun b ops)
    (hv : lookupAList owner b.initial_balances = some v) :
    lookupAList owner (Bank.applyAll b ops).initial_balances = some v := by
  induction ops generalizing b with
  | nil => exact hv
  | cons op ops ih =>
      obtain ⟨hval, hrest⟩ := hrun
      rw [Bank.applyAll, List.foldl_cons, ← Bank.applyAll]
      apply ih (b.apply op) hrest
      cases op with
      | Transfer t => exact hv
      | OpenAccount owner2 bal =>
          have hnc : ¬ containsKey owner2 b.initial_balances := by
            intro hc
            simp [Bank.validate, Bank.opSource, hc] at hval
          have hne : owner ≠ owner2 := by
            rintro rfl
            exact hnc (by simp [containsKey, hv])
          rw [apply_open_account_initial_balances, lookup_insertAList_ne hne]
          exact hv

/-- Witness for C9 at a concrete input: account 0 keeps its balance entry 5
after a later validated open of account 1. -/
theorem initial_balances_write_once_witness :
    lookupAList 0 (Bank.applyAll (Bank.applyAll (Bank.new (0 : Nat)) [Op.OpenAccount 0 5])
        [Op.OpenAccount 1 7, Op.Transfer (Transfer.mk 0 1 2 [])]).initial_balances =
      some 5 :=
  initial_balances_write_once (Bank.applyAll (Bank.new (0 : Nat)) [Op.OpenAccount 0 5])
    [Op.OpenAccount 1 7, Op.Transfer (Transfer.mk 0 1 2 [])] 0 5 (by decide) (by decide)

/-! ## Reachability and redelivery -/

/-- A Bank state reachable from `new(id)` by a sequence of `apply` calls. -/
def Bank.Reachable {A : Type} [DecidableEq A] (b : Bank A) : Prop :=
  ∃ (id : A) (ops : List (Op A)), b = Bank.applyAll (Bank.new id) ops

section ReachLemmas

variable {A : Type} [DecidableEq A]

/-- One `apply` step preserves the property that any recorded transfer is
recorded in both its sender's and its recipient's history. -/
theorem hist_pair_step (b : Bank A) (op : Op A)
    (h : ∀ a x, x ∈ b.hist a → x ∈ b.hist x.frm ∧ x ∈ b.hist x.tto) :
    ∀ a x, x ∈ (b.apply op).hist a →
      x ∈ (b.apply op).hist x.frm ∧ x ∈ (b.apply op).hist x.tto := by
  cases op with
  | OpenAccount owner bal => exact h
  | Transfer t =>
      intro a x hx
      rw [mem_apply_transfer_hist] at hx
      rcases hx with hmem | ⟨rfl, hcase⟩
      · obtain ⟨h1, h2⟩ := h a x hmem
        exact ⟨(mem_apply_transfer_hist b t x.frm x).mpr (Or.inl h1),
          (mem_apply_transfer_hist b t x.tto x).mpr (Or.inl h2)⟩
      · exact ⟨(mem_apply_transfer_hist b x x.frm x).mpr (Or.inr ⟨rfl, Or.inl rfl⟩),
          (mem_apply_transfer_hist b x x.tto x).mpr (Or.inr ⟨rfl, Or.inr rfl⟩)⟩

/-- In any reachable state, a transfer recorded anywhere in `hist` is
recorded in both its sender's and its recipient's history entries. -/
theorem reachable_hist_pair (b : Bank A) (hreach : b.Reachable) :
    ∀ a x, x ∈ b.hist a → x ∈ b.hist x.frm ∧ x ∈ b.hist x.tto := by
  obtain ⟨id, ops, rfl⟩ := hreach
  suffices hgen : ∀ (b0 : Bank A),
      (∀ a x, x ∈ b0.hist a → x ∈ b0.hist x.frm ∧ x ∈ b0.hist x.tto) →
      ∀ a x, x ∈ (Bank.applyAll b0 ops).hist a →
        x ∈ (Bank.applyAll b0 ops).hist x.frm ∧ x ∈ (Bank.applyAll b0 ops).hist x.tto by
    exact hgen (Bank.new id) (by intro a x hx; cases hx)
  induction ops with
  | nil => exact fun b0 h => h
  | cons op ops ih =>
      intro b0 h
      rw [Bank.applyAll, List.foldl_cons, ← Bank.applyAll]
      exact ih (b0.apply op) (hist_pair_step b0 op h)

/-- Erasing a batch of elements none of which is present is a no-op. -/
theorem setRemoveAll_of_disjoint {α : Type} [DecidableEq α] {s rem : List α}
    (h : ∀ x ∈ rem, x ∉ s) : setRemoveAll s rem = s := by
  induction rem with
  | nil => rfl
  | cons r rs ih =>
      have step : setRemoveAll s (r :: rs) = setRemoveAll (s.erase r) rs := rfl
      rw [step, List.erase_of_not_mem (h r (List.mem_cons_self r rs))]
      exact ih (fun x hx => h x (List.mem_cons_of_mem r hx))

end ReachLemmas

/-- C6 (amended): redelivery of an already-applied transfer.  In every
reachable state in which `t ∈ hist[t.from]`, re-applying `Op::Transfer(t)`
never changes `hist`; it also leaves `deps` unchanged provided the two
`deps` edits of `apply` have nothing to do — that is, if `t.to == id` then
`t` is still in `deps`, and if `t.from == id` then no element of `t.deps`
is in `deps` (both hold immediately after the first apply of `t`).  It is
NOT a no-op on `deps` in general: `reapply_transfer_counterexample`
exhibits a validated run where redelivery re-inserts `t` into `deps`. -/
theorem reapply_transfer_amended {A : Type} [DecidableEq A] (b : Bank A) (t : Transfer A)
    (hreach : b.Reachable) (happlied : t ∈ b.hist t.frm) :
    (b.apply (Op.Transfer t)).hist = b.hist ∧
    ((t.tto = b.id → t ∈ b.deps) → (t.frm = b.id → ∀ x ∈ t.deps, x ∉ b.deps) →
      (b.apply (Op.Transfer t)).deps = b.deps) := by
  have hpair := reachable_hist_pair b hreach t.frm t happlied
  constructor
  · funext a
    rw [apply_transfer_hist]
    by_cases h2 : a = t.tto <;> by_cases h1 : a = t.frm
    · have m : t ∈ b.hist a := by rw [h1]; exact hpair.1
      rw [if_pos h2, if_pos h1, setInsert_of_mem m, setInsert_of_mem m]
    · have m : t ∈ b.hist a := by rw [h2]; exact hpair.2
      rw [if_pos h2, if_neg h1, setInsert_of_mem m]
    · have m : t ∈ b.hist a := by rw [h1]; exact hpair.1
      rw [if_neg h2, if_pos h1, setInsert_of_mem m]
    · rw [if_neg h2, if_neg h1]
  · intro hins hrem
    rw [apply_transfer_deps]
    by_cases hfr : t.frm = b.id
    · rw [if_pos hfr]
      by_cases hto : t.tto = b.id
      · rw [if_pos hto, setInsert_of_mem (hins hto), setRemoveAll_of_disjoint (hrem hfr)]
      · rw [if_neg hto, setRemoveAll_of_disjoint (hrem hfr)]
    · rw [if_neg hfr]
      by_cases hto : t.tto = b.id
      · rw [if_pos hto, setInsert_of_mem (hins hto)]
      · rw [if_neg hto]

/-- Witness for the amended C6 at a concrete input: immediately after the
first apply of an incoming transfer, redelivering it leaves `deps`
unchanged. -/
theorem reapply_transfer_amended_witness :
    (Bank.apply
        (Bank.applyAll (Bank.new (0 : Nat))
          [Op.OpenAccount 0 5, Op.OpenAccount 1 5, Op.Transfer (Transfer.mk 1 0 3 [])])
        (Op.Transfer (Transfer.mk 1 0 3 []))).deps =
      (Bank.applyAll (Bank.new (0 : Nat))
        [Op.OpenAccount 0 5, Op.OpenAccount 1 5, Op.Transfer (Transfer.mk 1 0 3 [])]).deps :=
  (reapply_transfer_amended
      (Bank.applyAll (Bank.new (0 : Nat))
        [Op.OpenAccount 0 5, Op.OpenAccount 1 5, Op.Transfer (Transfer.mk 1 0 3 [])])
      (Transfer.mk 1 0 3 [])
      ⟨0, [Op.OpenAccount 0 5, Op.OpenAccount 1 5, Op.Transfer (Transfer.mk 1 0 3 [])], rfl⟩
      (by decide)).2
    (fun _ => by decide) (fun h => absurd h (by decide))

/-- C6 (counterexample to the claim as stated): a validated run in which a
transfer `t` into the bank's own account is applied, then an outgoing
transfer citing `t` clears it from `deps`, and redelivering `t`
(re-accepted by `validate`) re-inserts `t` into `deps` — so re-applying an
already-applied transfer (`t ∈ hist[t.from]`) is not always a no-op on
`deps`. -/
theorem reapply_transfer_counterexample :
    Bank.ValidRun (Bank.new (0 : Nat))
      [Op.OpenAccount 0 100, Op.OpenAccount 1 100,
        Op.Transfer (Transfer.mk 1 0 10 []),
        Op.Transfer (Transfer.mk 0 1 5 [Transfer.mk 1 0 10 []]),
        Op.Transfer (Transfer.mk 1 0 10 [])] ∧
    Transfer.mk 1 0 10 [] ∈
      (Bank.applyAll (Bank.new (0 : Nat))
        [Op.OpenAccount 0 100, Op.OpenAccount 1 100,
          Op.Transfer (Transfer.mk 1 0 10 []),
          Op.Transfer (Transfer.mk 0 1 5 [Transfer.mk 1 0 10 []])]).hist 1 ∧
    ((Bank.applyAll (Bank.new (0 : Nat))
        [Op.OpenAccount 0 100, Op.OpenAccount 1 100,
          Op.Transfer (Transfer.mk 1 0 10 []),
          Op.Transfer (Transfer.mk 0 1 5 [Transfer.mk 1 0 10 []])]).apply
        (Op.Transfer (Transfer.mk 1 0 10 []))).deps ≠
      (Bank.applyAll (Bank.new (0 : Nat))
        [Op.OpenAccount 0 100, Op.OpenAccount 1 100,
          Op.Transfer (Transfer.mk 1 0 10 []),
          Op.Transfer (Transfer.mk 0 1 5 [Transfer.mk 1 0 10 []])]).deps := by
  refine ⟨by decide, by decide, by decide⟩

/-! ## Conservation machinery -/

/-- The total of present balances over the known accounts, measured by the
signed ledger value `balanceInt` of each key of `initial_balances`. -/
def Bank.sumBalances {A : Type} [DecidableEq A] (b : Bank A) : Int :=
  (b.initial_balances.map (fun p => b.balanceInt p.1)).sum

/-- The total of the recorded initial balances. -/
def Bank.sumInitial {A : Type} [DecidableEq A] (b : Bank A) : Int :=
  (b.initial_balances.map (fun p => (p.2 : Int))).sum

section SumLemmas

variable {A : Type} [DecidableEq A]

theorem sum_map_ite_single {l : List A} (hnd : l.Nodup) {x : A} (hx : x ∈ l) (c : Int) :
    (l.map (fun k => if x = k then c else 0)).sum = c := by
  induction l with
  | nil => cases hx
  | cons a rest ih =>
      rw [List.map_cons, List.sum_cons]
      rcases List.mem_cons.mp hx with rfl | hmem
      · rw [if_pos rfl]
        have hz : (rest.map (fun k => if x = k then c else 0)).sum = 0 := by
          apply List.sum_eq_zero
          intro y hy
          obtain ⟨k, hk, rfl⟩ := List.mem_map.mp hy
          rw [if_neg]
          intro heq
          rw [← heq] at hk
          exact (List.nodup_cons.mp hnd).1 hk
        rw [hz, add_zero]
      · have hne : x ≠ a := by
          rintro rfl
          exact (List.nodup_cons.mp hnd).1 hmem
        rw [if_neg hne, zero_add]
        exact ih (List.nodup_cons.mp hnd).2 hmem

theorem sum_map_sub_int (l : List A) (f g : A → Int) :
    (l.map (fun k => f k - g k)).sum = (l.map f).sum - (l.map g).sum := by
  induction l with
  | nil => simp
  | cons a rest ih =>
      simp only [List.map_cons, List.sum_cons, ih]
      ring

end SumLemmas

section ValidFacts

variable {A : Type} [DecidableEq A]

/-- A transfer accepted by `validate` names two known accounts. -/
theorem valid_transfer_facts (b : Bank A) (t : Transfer A)
    (h : b.validate t.frm (Op.Transfer t) = some (Except.ok ())) :
    containsKey t.frm b.initial_balances ∧ containsKey t.tto b.initial_balances := by
  by_cases hf : containsKey t.frm b.initial_balances
  · by_cases ht : containsKey t.tto b.initial_balances
    · exact ⟨hf, ht⟩
    · exfalso
      simp [Bank.validate, hf, ht] at h
  · exfalso
    simp [Bank.validate, hf] at h

/-- An `OpenAccount` accepted by `validate` is for a fresh owner. -/
theorem valid_open_facts (b : Bank A) (owner : A) (bal : Money)
    (h : b.validate owner (Op.OpenAccount owner bal) = some (Except.ok ())) :
    ¬ containsKey owner b.initial_balances := by
  intro hc
  simp [Bank.validate, hc] at h

/-- `containsKey` is monotone under `insertAList`. -/
theorem containsKey_insertAList (k k' : A) (v : Money) (m : List (A × Money))
    (h : containsKey k m) : containsKey k (insertAList k' v m) := by
  by_cases hk : k = k'
  · subst hk
    simp [containsKey, lookup_insertAList_self]
  · simpa [containsKey, lookup_insertAList_ne hk v m] using h

end ValidFacts

section FreshLemmas

variable {A : Type} [DecidableEq A]

/-- Applying a transfer not yet recorded anywhere prepends it to exactly the
sender's and recipient's history entries. -/
theorem apply_transfer_hist_fresh (b : Bank A) (t : Transfer A)
    (hf : ∀ a, t ∉ b.hist a) (k : A) :
    (b.apply (Op.Transfer t)).hist k =
      if k = t.tto ∨ k = t.frm then t :: b.hist k else b.hist k := by
  rw [apply_transfer_hist]
  by_cases h2 : k = t.tto <;> by_cases h1 : k = t.frm
  · rw [if_pos h2, if_pos h1, setInsert_of_not_mem (hf k),
      setInsert_of_mem (List.mem_cons_self t (b.hist k)), if_pos (Or.inl h2)]
  · rw [if_pos h2, if_neg h1, setInsert_of_not_mem (hf k), if_pos (Or.inl h2)]
  · rw [if_neg h2, if_pos h1, setInsert_of_not_mem (hf k), if_pos (Or.inr h1)]
  · rw [if_neg h2, if_neg h1, if_neg (by simp [h1, h2])]

/-- Applying an already fully recorded transfer leaves every history entry
unchanged. -/
theorem apply_transfer_hist_applied (b : Bank A) (t : Transfer A)
    (h1 : t ∈ b.hist t.frm) (h2 : t ∈ b.hist t.tto) (k : A) :
    (b.apply (Op.Transfer t)).hist k = b.hist k := by
  rw [apply_transfer_hist]
  by_cases hk2 : k = t.tto <;> by_cases hk1 : k = t.frm
  · have m : t ∈ b.hist k := by rw [hk1]; exact h1
    rw [if_pos hk2, if_pos hk1, setInsert_of_mem m, setInsert_of_mem m]
  · have m : t ∈ b.hist k := by rw [hk2]; exact h2
    rw [if_pos hk2, if_neg hk1, setInsert_of_mem m]
  · have m : t ∈ b.hist k := by rw [hk1]; exact h1
    rw [if_neg hk2, if_pos hk1, setInsert_of_mem m]
  · rw [if_neg hk2, if_neg hk1]

theorem incoming_apply_transfer_fresh (b : Bank A) (t : Transfer A)
    (hf : ∀ a, t ∉ b.hist a) (k : A) :
    (b.apply (Op.Transfer t)).incoming k =
      b.incoming k + (if t.tto = k then t.amount else 0) := by
  unfold Bank.incoming Bank.history
  rw [apply_transfer_hist_fresh b t hf k]
  by_cases hk : k = t.tto ∨ k = t.frm
  · rw [if_pos hk, List.filter_cons]
    by_cases htt : t.tto = k
    · simp [htt, Nat.add_comm]
    · simp [htt]
  · rw [if_neg hk]
    have htt : ¬ (t.tto = k) := fun h => hk (Or.inl h.symm)
    simp [htt]

theorem outgoing_apply_transfer_fresh (b : Bank A) (t : Transfer A)
    (hf : ∀ a, t ∉ b.hist a) (k : A) :
    (b.apply (Op.Transfer t)).outgoing k =
      b.outgoing k + (if t.frm = k then t.amount else 0) := by
  unfold Bank.outgoing Bank.history
  rw [apply_transfer_hist_fresh b t hf k]
  by_cases hk : k = t.tto ∨ k = t.frm
  · rw [if_pos hk, List.filter_cons]
    by_cases htt : t.frm = k
    · simp [htt, Nat.add_comm]
    · simp [htt]
  · rw [if_neg hk]
    have htt : ¬ (t.frm = k) := fun h => hk (Or.inr h.symm)
    simp [htt]

theorem balanceInt_apply_transfer_fresh (b : Bank A) (t : Transfer A)
    (hf : ∀ a, t ∉ b.hist a) (k : A) :
    (b.apply (Op.Transfer t)).balanceInt k =
      b.balanceInt k + ((if t.tto = k then (t.amount : Int) else 0) -
        (if t.frm = k then (t.amount : Int) else 0)) := by
  unfold Bank.balanceInt
  have hib : (b.apply (Op.Transfer t)).initial_balance k = b.initial_balance k := rfl
  rw [hib, incoming_apply_transfer_fresh b t hf k, outgoing_apply_transfer_fresh b t hf k]
  by_cases h2 : t.tto = k <;> by_cases h1 : t.frm = k <;>
    simp [h2, h1] <;> push_cast <;> ring

end FreshLemmas

/-- Well-formedness carried along validated runs: distinct account keys,
every recorded transfer present in both endpoint histories, every recorded
transfer touching only known accounts, and the conservation equation. -/
def Bank.GoodState {A : Type} [DecidableEq A] (b : Bank A) : Prop :=
  (b.initial_balances.map Prod.fst).Nodup ∧
  (∀ a x, x ∈ b.hist a → x ∈ b.hist x.frm ∧ x ∈ b.hist x.tto) ∧
  (∀ a x, x ∈ b.hist a →
    containsKey x.frm b.initial_balances ∧ containsKey x.tto b.initial_balances) ∧
  Bank.sumBalances b = Bank.sumInitial b

section Conservation

variable {A : Type} [DecidableEq A]

theorem sum_map_ite_single_pairs {m : List (A × Money)}
    (hnd : (m.map Prod.fst).Nodup) {x : A} (hx : containsKey x m) (c : Int) :
    (m.map (fun p => if x = p.1 then c else 0)).sum = c := by
  have hmm : m.map (fun p => if x = p.1 then c else 0) =
      (m.map Prod.fst).map (fun k => if x = k then c else 0) := by
    rw [List.map_map]
    rfl
  rw [hmm, sum_map_ite_single hnd (containsKey_iff_mem_keys.mp hx) c]

/-- One validated `apply` step preserves `GoodState`. -/
theorem goodState_step (b : Bank A) (op : Op A)
    (hval : b.validate (Bank.opSource op) op = some (Except.ok ()))
    (hg : b.GoodState) : (b.apply op).GoodState := by
  obtain ⟨hnd, hpair, hkeys, hsum⟩ := hg
  cases op with
  | Transfer t =>
      obtain ⟨hcf, hct⟩ := valid_transfer_facts b t hval
      refine ⟨hnd, hist_pair_step b (Op.Transfer t) hpair, ?_, ?_⟩
      · intro a x hx
        rw [mem_apply_transfer_hist] at hx
        rcases hx with hmem | ⟨rfl, _⟩
        · exact hkeys a x hmem
        · exact ⟨hcf, hct⟩
      · by_cases happ : t ∈ b.hist t.frm
        · have hsame := apply_transfer_hist_applied b t happ (hpair t.frm t happ).2
          have hbalk : ∀ k, (b.apply (Op.Transfer t)).balanceInt k = b.balanceInt k := by
            intro k
            unfold Bank.balanceInt Bank.initial_balance Bank.incoming Bank.outgoing
              Bank.history
            rw [hsame k]
            rfl
          have hsb : Bank.sumBalances (b.apply (Op.Transfer t)) = Bank.sumBalances b := by
            unfold Bank.sumBalances
            exact congrArg List.sum (List.map_congr_left (fun p _ => hbalk p.1))
          rw [hsb, hsum]
          rfl
        · have hfresh : ∀ a, t ∉ b.hist a := fun a ha => happ (hpair a t ha).1
          have hsb : Bank.sumBalances (b.apply (Op.Transfer t)) =
              Bank.sumBalances b +
                ((b.initial_balances.map
                    (fun p => if t.tto = p.1 then (t.amount : Int) else 0)).sum -
                  (b.initial_balances.map
                    (fun p => if t.frm = p.1 then (t.amount : Int) else 0)).sum) := by
            have h1 : Bank.sumBalances (b.apply (Op.Transfer t)) =
                (b.initial_balances.map (fun p =>
                  b.balanceInt p.1 + ((if t.tto = p.1 then (t.amount : Int) else 0) -
                    (if t.frm = p.1 then (t.amount : Int) else 0)))).sum := by
              unfold Bank.sumBalances
              exact congrArg List.sum
                (List.map_congr_left (fun p _ => balanceInt_apply_transfer_fresh b t hfresh p.1))
            rw [h1, List.sum_map_add, sum_map_sub_int]
            rfl
          rw [hsb, sum_map_ite_single_pairs hnd hcf (t.amount : Int),
            sum_map_ite_single_pairs hnd hct (t.amount : Int), hsum]
          have hsi : Bank.sumInitial (b.apply (Op.Transfer t)) = Bank.sumInitial b := rfl
          rw [hsi]
          ring
  | OpenAccount owner bal =>
      have hnc : ¬ containsKey owner b.initial_balances := valid_open_facts b owner bal hval
      have hins : (b.apply (Op.OpenAccount owner bal)).initial_balances =
          b.initial_balances ++ [(owner, bal)] := by
        rw [apply_open_account_initial_balances, insertAList_of_not_containsKey hnc]
      refine ⟨?_, hpair, ?_, ?_⟩
      · rw [hins, List.map_append, List.nodup_append]
        refine ⟨hnd, by simp, ?_⟩
        intro x hx
        simp only [List.map_cons, List.map_nil, List.mem_singleton]
        intro hxo
        rw [hxo] at hx
        exact hnc (containsKey_iff_mem_keys.mpr hx)
      · intro a x hx
        have hx' : x ∈ b.hist a := hx
        obtain ⟨h1, h2⟩ := hkeys a x hx'
        rw [apply_open_account_initial_balances]
        exact ⟨containsKey_insertAList _ _ _ _ h1, containsKey_insertAList _ _ _ _ h2⟩
      · have hbk : ∀ k, k ≠ owner →
            (b.apply (Op.OpenAccount owner bal)).balanceInt k = b.balanceInt k := by
          intro k hk
          unfold Bank.balanceInt Bank.initial_balance Bank.incoming Bank.outgoing
            Bank.history
          rw [apply_open_account_initial_balances,
            lookup_insertAList_ne hk bal b.initial_balances]
          rfl
        have hin : (b.apply (Op.OpenAccount owner bal)).incoming owner = 0 := by
          unfold Bank.incoming Bank.history
          have hnilf : ((b.apply (Op.OpenAccount owner bal)).hist owner).filter
              (fun x => x.tto = owner) = [] := by
            rw [List.filter_eq_nil_iff]
            intro x hx
            have hx' : x ∈ b.hist owner := hx
            simp only [decide_eq_true_eq]
            intro hxo
            exact hnc (hxo ▸ (hkeys owner x hx').2)
          rw [hnilf]
          rfl
        have hout : (b.apply (Op.OpenAccount owner bal)).outgoing owner = 0 := by
          unfold Bank.outgoing Bank.history
          have hnilf : ((b.apply (Op.OpenAccount owner bal)).hist owner).filter
              (fun x => x.frm = owner) = [] := by
            rw [List.filter_eq_nil_iff]
            intro x hx
            have hx' : x ∈ b.hist owner := hx
            simp only [decide_eq_true_eq]
            intro hxo
            exact hnc (hxo ▸ (hkeys owner x hx').1)
          rw [hnilf]
          rfl
        have hbo : (b.apply (Op.OpenAccount owner bal)).balanceInt owner = (bal : Int) := by
          unfold Bank.balanceInt Bank.initial_balance
          rw [apply_open_account_initial_balances, lookup_insertAList_self, hin, hout]
          simp
        have hsb : Bank.sumBalances (b.apply (Op.OpenAccount owner bal)) =
            Bank.sumBalances b + (bal : Int) := by
          unfold Bank.sumBalances
          rw [hins, List.map_append, List.sum_append]
          have hcongr : b.initial_balances.map
                (fun p => (b.apply (Op.OpenAccount owner bal)).balanceInt p.1) =
              b.initial_balances.map (fun p => b.balanceInt p.1) := by
            apply List.map_congr_left
            intro p hp
            apply hbk
            intro hpo
            apply hnc
            rw [← hpo]
            exact containsKey_iff_mem_keys.mpr (List.mem_map.mpr ⟨p, hp, rfl⟩)
          rw [hcongr]
          simp [hbo]
        have hsi : Bank.sumInitial (b.apply (Op.OpenAccount owner bal)) =
            Bank.sumInitial b + (bal : Int) := by
          unfold Bank.sumInitial
          rw [hins, List.map_append, List.sum_append]
          simp
        rw [hsb, hsi, hsum]

/-- `GoodState` holds after any validated run from a good state. -/
theorem goodState_applyAll (b : Bank A) (ops : List (Op A))
    (hrun : Bank.ValidRun b ops) (hg : b.GoodState) : (Bank.applyAll b ops).GoodState := by
  induction ops generalizing b with
  | nil => exact hg
  | cons op ops ih =>
      obtain ⟨hval, hrest⟩ := hrun
      rw [Bank.applyAll, List.foldl_cons, ← Bank.applyAll]
      exact ih (b.apply op) hrest (goodState_step b op hval hg)

/-- A defined `balance` equals the signed ledger value `balanceInt`. -/
theorem balanceInt_of_balance (b : Bank A) (a : A) (m : Money)
    (h : b.balance a = some m) : (m : Int) = b.balanceInt a := by
  cases hib : b.initial_balance a with
  | none =>
      unfold Bank.balance at h
      rw [hib] at h
      exact Option.noConfusion h
  | some ib =>
      unfold Bank.balance at h
      rw [hib] at h
      replace h : (if 0 ≤ (ib : Int) + ((b.incoming a : Int) - (b.outgoing a : Int)) ∧
          (ib : Int) + ((b.incoming a : Int) - (b.outgoing a : Int)) ≤ (Money.maxValue : Int)
          then some ((ib : Int) + ((b.incoming a : Int) - (b.outgoing a : Int))).toNat
          else none) = some m := h
      unfold Bank.balanceInt
      rw [hib]
      by_cases hc : 0 ≤ (ib : Int) + ((b.incoming a : Int) - (b.outgoing a : Int)) ∧
          (ib : Int) + ((b.incoming a : Int) - (b.outgoing a : Int)) ≤ (Money.maxValue : Int)
      · rw [if_pos hc] at h
        have h2 := Option.some.inj h
        rw [← h2]
        simp [Int.toNat_of_nonneg hc.1]
      · rw [if_neg hc] at h
        exact Option.noConfusion h

end Conservation

/-- C5: conservation.  After any validated run from `new(id)` — each op
accepted by `validate` against the state it is applied to — the sum of the
ledger balances over all actors present in `initial_balances` equals the
sum of their initial balances; in particular wherever `balance` is defined
it agrees with the ledger value, so the sum of `balance(a)` equals the sum
of `initial_balance(a)`. -/
theorem conservation {A : Type} [DecidableEq A] (id : A) (ops : List (Op A))
    (hrun : Bank.ValidRun (Bank.new id) ops) :
    Bank.sumBalances (Bank.applyAll (Bank.new id) ops) =
      Bank.sumInitial (Bank.applyAll (Bank.new id) ops) ∧
    ∀ f : A → Money,
      (∀ p ∈ (Bank.applyAll (Bank.new id) ops).initial_balances,
        (Bank.applyAll (Bank.new id) ops).balance p.1 = some (f p.1)) →
      ((Bank.applyAll (Bank.new id) ops).initial_balances.map
          (fun p => ((f p.1 : Int)))).sum =
        ((Bank.applyAll (Bank.new id) ops).initial_balances.map
          (fun p => ((p.2 : Int)))).sum := by
  have hbase : (Bank.new id).GoodState := by
    refine ⟨?_, ?_, ?_, rfl⟩
    · simp [Bank.new]
    · intro a x hx
      cases hx
    · intro a x hx
      cases hx
  have hg : (Bank.applyAll (Bank.new id) ops).GoodState :=
    goodState_applyAll _ _ hrun hbase
  refine ⟨hg.2.2.2, ?_⟩
  intro f hf
  have hcg : (Bank.applyAll (Bank.new id) ops).initial_balances.map
        (fun p => ((f p.1 : Int))) =
      (Bank.applyAll (Bank.new id) ops).initial_balances.map
        (fun p => (Bank.applyAll (Bank.new id) ops).balanceInt p.1) :=
    List.map_congr_left (fun p hp => balanceInt_of_balance _ _ _ (hf p hp))
  rw [hcg]
  exact hg.2.2.2

/-- Witness for C5 at a concrete input: two accounts opened with 4 and 6
and a validated transfer of 3 conserve the total 10. -/
theorem conservation_witness :
    Bank.sumBalances (Bank.applyAll (Bank.new (0 : Nat))
        [Op.OpenAccount 0 4, Op.OpenAccount 1 6, Op.Transfer (Transfer.mk 0 1 3 [])]) =
      Bank.sumInitial (Bank.applyAll (Bank.new (0 : Nat))
        [Op.OpenAccount 0 4, Op.OpenAccount 1 6, Op.Transfer (Transfer.mk 0 1 3 [])]) :=
  (conservation 0 [Op.OpenAccount 0 4, Op.OpenAccount 1 6,
    Op.Transfer (Transfer.mk 0 1 3 [])] (by decide)).1

/-- Concrete instance of C4: after opening two accounts and applying an
incoming transfer on the bank for actor 0, the `deps` frontier is contained
in the bank's own history entry. -/
theorem deps_subset_own_hist_witness :
    (Bank.applyAll (Bank.new (0 : Nat))
        [Op.OpenAccount 0 5, Op.OpenAccount 1 5, Op.Transfer (Transfer.mk 1 0 3 [])]).deps ⊆
      (Bank.applyAll (Bank.new (0 : Nat))
        [Op.OpenAccount 0 5, Op.OpenAccount 1 5, Op.Transfer (Transfer.mk 1 0 3 [])]).hist 0 :=
  deps_subset_own_hist 0
    [Op.OpenAccount 0 5, Op.OpenAccount 1 5, Op.Transfer (Transfer.mk 1 0 3 [])]
